import Mathlib

/-!
Verification development for the Sevens game engine
(`src/code_skeleton/MyGameMapper.cpp`, namespace `sevens`).

The C++ engine is shallowly embedded here:

* `Card`, `Table` mirror `struct Card` and the nested
  `table_layout` map (a presence check on the nested map with a missing
  key reads as `false`, so the table is the set of face-up cells).
* `isPlayable` embeds `MyGameMapper::isPlayable`.
* `roundStep` embeds one iteration of the `while` loop of
  `MyGameMapper::playRound`; `runRound` iterates it with explicit fuel,
  `none` meaning "still running after that many iterations".
  Strategy calls are modelled by an arbitrary response oracle
  `resp : RoundState → Int` standing for
  `strategy->selectCardToPlay(hand, table_layout)`; the `observeMove` /
  `observePass` notifications are returned as an explicit event list.
  A strategy return value below `-1` reaches
  `player_hands[playerID][card_idx]` with a negative index in the C++
  (out-of-bounds access); that is modelled as the `crash` outcome.
* `tallyRound` / `runMultipleRounds` embed the per-round bookkeeping of
  `MyGameMapper::runMultipleRounds`, with the round results supplied by
  an oracle (the actual round depends on the shuffle, which is the only
  nondeterminism in the program).
* `registerStrategy` / `ensureStrategies` embed the registration logic,
  with the std::map fields as association lists and the strategy
  `initialize` calls recorded in an explicit log.
-/

namespace Sevens

/-- Embeds `struct Card` from `Generic_card_parser.hpp`: suit 0..3, rank 1..13. -/
structure Card where
  suit : Nat
  rank : Nat
deriving DecidableEq, Repr

/-- The `table_layout` nested map, read through its presence checks:
a cell is face-up iff it is in this list. -/
abbrev Table := List (Nat × Nat)

/-- Reading a cell of `table_layout` the way the C++ does
(`count(...) > 0 && ... .at(...)`): missing keys read as `false`. -/
def tableHas (t : Table) (s r : Nat) : Bool :=
  decide ((s, r) ∈ t)

/-- Embeds `MyGameMapper::resetTableLayout`: all cells false except
Diamonds (suit 1), rank 7. -/
def resetTableLayout : Table := [(1, 7)]

/-- Embeds `table_layout[suit][rank] = true`. -/
def setCell (t : Table) (s r : Nat) : Table := (s, r) :: t

/-- Embeds `MyGameMapper::isPlayable`: a 7 is playable iff its own cell
is not yet face-up; any other rank is playable iff a face-up neighbor
cell exists (guarded by `rank < 13` / `rank > 1` exactly as in the C++). -/
def isPlayable (c : Card) (t : Table) : Bool :=
  if c.rank == 7 then
    !(tableHas t c.suit 7)
  else
    (decide (c.rank < 13) && tableHas t c.suit (c.rank + 1)) ||
    (decide (c.rank > 1) && tableHas t c.suit (c.rank - 1))

/-- State of the `playRound` loop: `hands` is `player_hands` for the
players `0, …, hands.length - 1` (which is `player_order`, already in
ascending order), `currentIdx` is `current_player_idx` and `passes` is
`consecutive_passes`. -/
structure RoundState where
  hands : List (List Card)
  table : Table
  currentIdx : Nat
  passes : Nat
deriving DecidableEq, Repr

/-- Notifications sent to the other strategies
(`observePass` / `observeMove`). -/
inductive Event where
  | passEv (observer : Nat) (actor : Nat)
  | moveEv (observer : Nat) (actor : Nat) (c : Card)
deriving DecidableEq, Repr

/-- The `observePass(playerID)` loop: every registered strategy except
the actor, in ascending key order. -/
def passNotices (n actor : Nat) : List Event :=
  ((List.range n).filter (fun j => j != actor)).map (fun j => Event.passEv j actor)

/-- The `observeMove(playerID, played_card)` loop. -/
def moveNotices (n actor : Nat) (c : Card) : List Event :=
  ((List.range n).filter (fun j => j != actor)).map (fun j => Event.moveEv j actor c)

/-- Embeds the deadlock scan of `playRound` (the nested `for` loops
setting `gameBlocked`): true iff every card of every hand fails
`isPlayable`. -/
def isBlockedAll (hands : List (List Card)) (t : Table) : Bool :=
  hands.all (fun h => h.all (fun c => !(isPlayable c t)))

/-- The hand of the player about to act. -/
def currentHand (s : RoundState) : List Card :=
  s.hands.getD s.currentIdx []

/-- Result of one iteration of the `playRound` loop: continue with a new
state, return a winner, return `UINT64_MAX` (blocked), or perform the
out-of-bounds vector access (strategy returned an index below `-1`). -/
inductive StepResult where
  | cont (s : RoundState)
  | resolvedR (w : Nat) (s : RoundState)
  | blockedR (s : RoundState)
  | crash
deriving DecidableEq, Repr

/-- One iteration of the `while (winner == UINT64_MAX)` loop of
`MyGameMapper::playRound`, together with the notifications it sends.
`resp s` stands for the value `selectCardToPlay` returns in state `s`. -/
def roundStep (resp : RoundState → Int) (s : RoundState) : StepResult × List Event :=
  let n := s.hands.length
  let pid := s.currentIdx
  let hand := currentHand s
  if hand.isEmpty then
    (.cont { s with currentIdx := (pid + 1) % n }, [])
  else
    let r := resp s
    if r = -1 ∨ (hand.length : Int) ≤ r then
      let s1 : RoundState := { s with passes := s.passes + 1 }
      if n ≤ s1.passes then
        if isBlockedAll s.hands s.table then
          (.blockedR s1, passNotices n pid)
        else
          (.cont { s1 with currentIdx := (pid + 1) % n }, passNotices n pid)
      else
        (.cont { s1 with currentIdx := (pid + 1) % n }, passNotices n pid)
    else if r < 0 then
      (.crash, [])
    else
      let idx := r.toNat
      let card := hand.getD idx ⟨0, 0⟩
      if isPlayable card s.table then
        let t' := setCell s.table card.suit card.rank
        let hand' := hand.eraseIdx idx
        let hands' := s.hands.set pid hand'
        if hand'.isEmpty then
          (.resolvedR pid { s with hands := hands', table := t' }, moveNotices n pid card)
        else
          (.cont { hands := hands', table := t', currentIdx := (pid + 1) % n, passes := 0 },
           moveNotices n pid card)
      else
        (.cont { s with passes := s.passes + 1, currentIdx := (pid + 1) % n },
         passNotices n pid)

/-- Terminal outcomes of a round. -/
inductive RoundOutcome where
  | resolvedO (w : Nat)
  | blockedO
  | crashO
deriving DecidableEq, Repr

/-- Runs the `playRound` loop for at most `fuel` iterations; `none`
means the loop has not returned yet. -/
def runRound (resp : RoundState → Int) : Nat → RoundState → Option (RoundOutcome × RoundState)
  | 0, _ => none
  | fuel + 1, s =>
    match (roundStep resp s).1 with
    | .cont s' => runRound resp fuel s'
    | .resolvedR w s' => some (.resolvedO w, s')
    | .blockedR s' => some (.blockedO, s')
    | .crash => some (.crashO, s)

/-- The round loop never returning, for any amount of fuel: the C++
`while` loop runs forever. -/
def neverTerminates (resp : RoundState → Int) (s : RoundState) : Prop :=
  ∀ fuel, runRound resp fuel s = none

/-- The 52-card deck, suits 0..3 and ranks 1..13 (what `read_cards`
parses from a full card file). -/
def fullDeck : List Card :=
  (List.range 4).flatMap (fun s => (List.range 13).map (fun r => ⟨s, r + 1⟩))

/-- Written from the spec of the playability rule, for comparison with
the embedded `isPlayable`: a 7 is playable iff its own cell is not yet
face-up; otherwise the cell below or the cell above must be face-up,
edge ranks 1 and 13 checking only their single existing neighbor. -/
def specIsPlayable (c : Card) (t : Table) : Bool :=
  if c.rank == 7 then
    !(tableHas t c.suit 7)
  else if c.rank == 1 then
    tableHas t c.suit 2
  else if c.rank == 13 then
    tableHas t c.suit 12
  else
    tableHas t c.suit (c.rank - 1) || tableHas t c.suit (c.rank + 1)

/-! ### Match-level bookkeeping (`MyGameMapper::runMultipleRounds`) -/

/-- The accumulation threshold `MAX_ACCUMULATED_CARDS`. -/
def MAX_ACCUMULATED_CARDS : Nat := 5000

/-- The per-match statistics touched by one iteration of the
`while (!gameOver)` loop: `player_total_cards`, `player_rounds_won` and
`total_rounds`, for players `0, …, totals.length - 1`. -/
structure MatchState where
  totals : List Nat
  roundsWon : List Nat
  totalRounds : Nat
deriving DecidableEq, Repr

/-- The bookkeeping of one iteration of the match loop, given the round
result: `player_rounds_won[roundWinner]++` when the round resolved, and
`player_total_cards[playerID] += cardsLeft` for every player. -/
def tallyRound (ms : MatchState) (winner : Option Nat) (remaining : List Nat) : MatchState :=
  { totals := List.zipWith (fun a b => a + b) ms.totals remaining,
    roundsWon :=
      match winner with
      | some w => ms.roundsWon.set w (ms.roundsWon.getD w 0 + 1)
      | none => ms.roundsWon,
    totalRounds := ms.totalRounds + 1 }

/-- The `gameOver` test: some accumulated total reached the threshold. -/
def thresholdReached (totals : List Nat) : Bool :=
  totals.any (fun t => MAX_ACCUMULATED_CARDS ≤ t)

/-- The `while (!gameOver)` loop of `runMultipleRounds`, with the result
of round `k` (winner, if any, and per-player remaining hand sizes)
supplied by the oracle `outcome k`; fuel bounds the number of rounds
considered, `none` meaning the loop is still running. -/
def runMultipleRounds (outcome : Nat → Option Nat × List Nat) :
    Nat → MatchState → Option MatchState
  | 0, _ => none
  | fuel + 1, ms =>
    let o := outcome ms.totalRounds
    let ms' := tallyRound ms o.1 o.2
    if thresholdReached ms'.totals then some ms' else runMultipleRounds outcome fuel ms'

/-! ### Strategy registration (`registerStrategy`, `ensureStrategies`) -/

/-- Which concrete strategy object a slot holds; the engine only needs
to distinguish the default `RandomStrategy` from anything else. -/
inductive StrategyTag where
  | randomS
  | otherS (name : String)
deriving DecidableEq, Repr

/-- Lookup in a std::map modelled as an association list. -/
def lookupA {α : Type} (m : List (Nat × α)) (k : Nat) : Option α :=
  (m.find? (fun p => p.1 == k)).map (fun p => p.2)

/-- `map[k] = v`: overwrite the value if the key is present, insert it
otherwise. -/
def setA {α : Type} : List (Nat × α) → Nat → α → List (Nat × α)
  | [], k, v => [(k, v)]
  | (k', v') :: rest, k, v =>
    if k' == k then (k, v) :: rest else (k', v') :: setA rest k v

/-- The registration maps of `MyGameMapper` (`player_strategies`,
`player_total_cards`, `player_rounds_won`) plus a log of the
`strategy->initialize(playerID)` calls made so far. -/
structure MapperState where
  strategies : List (Nat × StrategyTag)
  totals : List (Nat × Nat)
  roundsWon : List (Nat × Nat)
  initCalls : List Nat
deriving DecidableEq, Repr

/-- Embeds `MyGameMapper::registerStrategy`: store the strategy, call
its `initialize` hook with the player id, and create zeroed statistics
entries for the slot when they are absent. -/
def registerStrategy (pid : Nat) (strat : StrategyTag) (st : MapperState) : MapperState :=
  let st1 : MapperState :=
    { st with
      strategies := setA st.strategies pid strat,
      initCalls := st.initCalls ++ [pid] }
  let st2 : MapperState :=
    if (lookupA st1.totals pid).isNone then
      { st1 with totals := setA st1.totals pid 0 }
    else st1
  if (lookupA st2.roundsWon pid).isNone then
    { st2 with roundsWon := setA st2.roundsWon pid 0 }
  else st2

/-- Embeds `MyGameMapper::ensureStrategies`: give every slot
`0, …, numPlayers - 1` that has no registered strategy a default
`RandomStrategy`. -/
def ensureList (l : List Nat) (st : MapperState) : MapperState :=
  l.foldl
    (fun acc i =>
      if (lookupA acc.strategies i).isNone then registerStrategy i .randomS acc else acc)
    st

/-- `ensureStrategies numPlayers` runs the registration loop over the
slots `0, …, numPlayers - 1`. -/
def ensureStrategies (numPlayers : Nat) (st : MapperState) : MapperState :=
  ensureList (List.range numPlayers) st

/-! ### Name-indexed entry points -/

/-- Embeds the name-based overload of `compute_game_progress`
(`MyGameMapper.cpp:494`): it unconditionally throws
`std::runtime_error`, modelled as `Except.error`. -/
def compute_game_progress_named (_playerNames : List String) :
    Except String (List (String × Nat)) :=
  Except.error "Name-based game progress not implemented"

/-- Embeds the name-based overload of `compute_and_display_game`
(`MyGameMapper.cpp:500`): it unconditionally throws. -/
def compute_and_display_game_named (_playerNames : List String) :
    Except String (List (String × Nat)) :=
  Except.error "Name-based game display not implemented"

/-! ### Concrete configurations used in counterexamples and witnesses -/

/-- A response oracle that always returns the pass sentinel `-1`. -/
def respPassAll : RoundState → Int := fun _ => -1

/-- A response oracle that always returns index `0`. -/
def respZero : RoundState → Int := fun _ => 0

/-- A response oracle that always returns `-2` (below the pass
sentinel). -/
def respNeg2 : RoundState → Int := fun _ => -2

/-- The greedy strategy profile: every player plays the first playable
card of their hand, and passes (via the out-of-range value
`hand.length`) when none is playable. -/
def greedyResp (s : RoundState) : Int :=
  ((currentHand s).findIdx (fun c => isPlayable c s.table) : Int)

/-- Round start for two players holding the 6 of Diamonds (playable
against the fresh table) and the 9 of Clubs (not playable). -/
def cfgPassStuck : RoundState :=
  { hands := [[⟨1, 6⟩], [⟨0, 9⟩]], table := resetTableLayout, currentIdx := 0, passes := 0 }

/-- Round start for two players holding only the 3 of Clubs and the
9 of Clubs: no card anywhere is playable against the fresh table. -/
def cfgInvStuck : RoundState :=
  { hands := [[⟨0, 3⟩], [⟨0, 9⟩]], table := resetTableLayout, currentIdx := 0, passes := 0 }

/-- Round start for one player holding a 3-card hand. -/
def cfgThree : RoundState :=
  { hands := [[⟨0, 2⟩, ⟨0, 3⟩, ⟨0, 4⟩]], table := resetTableLayout, currentIdx := 0, passes := 0 }

/-- Round start for one player holding just the 6 of Diamonds. -/
def cfgSolo : RoundState :=
  { hands := [[⟨1, 6⟩]], table := resetTableLayout, currentIdx := 0, passes := 0 }

/-- The state carried by a non-crash step result. -/
def resultState : StepResult → Option RoundState
  | .cont s => some s
  | .resolvedR _ s => some s
  | .blockedR s => some s
  | .crash => none

/-- Whether a hand holds at least one playable card. -/
def handHasPlayable (h : List Card) (t : Table) : Bool :=
  h.any (fun c => isPlayable c t)

/-- Total number of cards still held across all hands. -/
def totalCards (s : RoundState) : Nat :=
  (s.hands.map List.length).sum

/-- Number of cyclic steps (bounded by the fuel) from position `idx`
to the next player whose hand holds a playable card. -/
def distTo (hands : List (List Card)) (t : Table) (n : Nat) : Nat → Nat → Nat
  | _, 0 => 0
  | idx, fuel + 1 =>
    if handHasPlayable (hands.getD (idx % n) []) t then 0
    else distTo hands t n ((idx + 1) % n) fuel + 1

/-- Secondary termination measure for the greedy round: while blocked,
passes accumulate towards the deadlock return; while not blocked, the
turn pointer approaches the next player able to play. -/
def nu (s : RoundState) : Nat :=
  if isBlockedAll s.hands s.table then
    s.hands.length - min s.passes s.hands.length
  else
    distTo s.hands s.table s.hands.length s.currentIdx s.hands.length

/-- Termination measure for the greedy round loop. -/
def mu (s : RoundState) : Nat :=
  totalCards s * (s.hands.length + 1) + nu s

/-! ### Theorems -/

/-- Claim C9: for every input, the name-indexed variants of
`compute_game_progress` and `compute_and_display_game` fail with an
explicit hard failure (`std::runtime_error`, embedded as
`Except.error`) and never return a normal result. -/
theorem named_entry_points_always_fail (names : List String) :
    (∃ msg, compute_game_progress_named names = Except.error msg) ∧
    (∃ msg, compute_and_display_game_named names = Except.error msg) ∧
    (∀ res, compute_game_progress_named names ≠ Except.ok res) ∧
    (∀ res, compute_and_display_game_named names ≠ Except.ok res) := by
  refine ⟨⟨_, rfl⟩, ⟨_, rfl⟩, fun res h => ?_, fun res h => ?_⟩ <;>
    exact Except.noConfusion h

/-- Claim C4: for every card with rank in 1..13 and every table,
`isPlayable` returns exactly what the spec's playability rule states: a
7 is playable iff its own cell is not face-up, any other rank is
playable iff a face-up neighbor exists, with edge ranks 1 and 13
checking their single existing neighbor. The embedded function is pure,
so it never mutates the table. -/
theorem isPlayable_matches_spec (c : Card) (t : Table)
    (h1 : 1 ≤ c.rank) (h2 : c.rank ≤ 13) :
    isPlayable c t = specIsPlayable c t := by
  obtain ⟨s, r⟩ := c
  simp only at h1 h2
  interval_cases r <;>
    simp [isPlayable, specIsPlayable, Bool.or_comm]

/-- Witness for claim C4 at the 6 of Diamonds against the fresh table. -/
theorem isPlayable_matches_spec_witness :
    (1 ≤ (⟨1, 6⟩ : Card).rank ∧ (⟨1, 6⟩ : Card).rank ≤ 13) ∧
    isPlayable ⟨1, 6⟩ resetTableLayout = specIsPlayable ⟨1, 6⟩ resetTableLayout :=
  ⟨by decide, isPlayable_matches_spec ⟨1, 6⟩ resetTableLayout (by decide) (by decide)⟩

/-- Counterexample to claim C8 as stated: immediately after the
round-start reset, the anchor card (7 of Diamonds) is NOT playable —
its cell is already face-up — while the 7 of Clubs IS playable by
virtue of its rank-7 status, so the anchor is not the unique
rank-7-playable card. -/
theorem resetLayout_anchor_not_playable :
    isPlayable ⟨1, 7⟩ resetTableLayout = false ∧
    isPlayable ⟨0, 7⟩ resetTableLayout = true := by decide

/-- Claim C8 (amended): immediately after the round-start reset the
playable cards of the 52-card deck are exactly the three non-anchor
sevens (playable by virtue of their rank-7 status) together with the
6 and 8 of Diamonds (each having the face-up anchor as neighbor); the
anchor itself is not playable, and every playable non-seven card has a
face-up neighbor cell. -/
theorem resetLayout_playable_cards :
    fullDeck.filter (fun c => isPlayable c resetTableLayout) =
      [⟨0, 7⟩, ⟨1, 6⟩, ⟨1, 8⟩, ⟨2, 7⟩, ⟨3, 7⟩] ∧
    isPlayable ⟨1, 7⟩ resetTableLayout = false ∧
    (∀ c ∈ fullDeck, c.rank ≠ 7 → isPlayable c resetTableLayout = true →
      (tableHas resetTableLayout c.suit (c.rank + 1) = true ∨
       tableHas resetTableLayout c.suit (c.rank - 1) = true)) := by decide

/-- A pass notification reaches a slot exactly once when the slot is a
player other than the actor, and never otherwise. -/
theorem passNotices_count (n actor j : Nat) :
    (passNotices n actor).count (Event.passEv j actor) =
      if j < n ∧ j ≠ actor then 1 else 0 := by
  have hinj : Function.Injective (fun i => Event.passEv i actor) := by
    intro a b h
    injection h
  have hnd : (passNotices n actor).Nodup :=
    (((List.nodup_range n).filter _).map hinj)
  have hmem : Event.passEv j actor ∈ passNotices n actor ↔ (j < n ∧ j ≠ actor) := by
    constructor
    · intro h
      obtain ⟨a, ha, heq⟩ := List.mem_map.mp h
      obtain ⟨har, hane⟩ := List.mem_filter.mp ha
      injection heq with h1 _
      subst h1
      exact ⟨List.mem_range.mp har, by simpa using hane⟩
    · intro ⟨hlt, hne⟩
      exact List.mem_map.mpr ⟨j,
        List.mem_filter.mpr ⟨List.mem_range.mpr hlt, by simpa using hne⟩, rfl⟩
  rw [List.count_eq_of_nodup hnd]
  by_cases h : j < n ∧ j ≠ actor
  · rw [if_pos (hmem.mpr h), if_pos h]
  · rw [if_neg (fun hm => h (hmem.mp hm)), if_neg h]

/-- Claim C2 (amended): a strategy return value that is the pass
sentinel `-1` or an index at least the hand's size, or an in-range
index of a card failing the playability rule, is treated as a pass:
hands and table are unchanged, the consecutive-pass counter is
incremented, and exactly the pass notifications of an explicit pass are
sent — one `observePass` per slot other than the actor, none to the
actor. (A return value below `-1` is instead an out-of-bounds access;
see the counterexample.) -/
theorem roundStep_pass_normalization (resp : RoundState → Int) (s : RoundState)
    (hne : currentHand s ≠ []) :
    ((resp s = -1 ∨ ((currentHand s).length : Int) ≤ resp s) →
      (∃ s₁, ((roundStep resp s).1 = .cont s₁ ∨ (roundStep resp s).1 = .blockedR s₁) ∧
        s₁.hands = s.hands ∧ s₁.table = s.table ∧ s₁.passes = s.passes + 1) ∧
      (roundStep resp s).2 = passNotices s.hands.length s.currentIdx) ∧
    (∀ k : Nat, resp s = (k : Int) → k < (currentHand s).length →
      isPlayable ((currentHand s).getD k ⟨0, 0⟩) s.table = false →
      (roundStep resp s).1 =
        .cont { s with passes := s.passes + 1,
                       currentIdx := (s.currentIdx + 1) % s.hands.length } ∧
      (roundStep resp s).2 = passNotices s.hands.length s.currentIdx) ∧
    (∀ j, j < s.hands.length → j ≠ s.currentIdx →
      (passNotices s.hands.length s.currentIdx).count (Event.passEv j s.currentIdx) = 1) ∧
    (passNotices s.hands.length s.currentIdx).count
      (Event.passEv s.currentIdx s.currentIdx) = 0 := by
  have hemp : ¬((currentHand s).isEmpty = true) := by
    simp [List.isEmpty_iff, hne]
  refine ⟨fun hr => ?_, fun k hrk hklt hkpl => ?_, fun j hj hjne => ?_, ?_⟩
  · unfold roundStep
    rw [if_neg hemp, if_pos hr]
    by_cases hth : s.hands.length ≤ s.passes + 1
    · rw [if_pos hth]
      by_cases hb : isBlockedAll s.hands s.table = true
      · rw [if_pos hb]
        exact ⟨⟨_, Or.inr rfl, rfl, rfl, rfl⟩, rfl⟩
      · rw [if_neg hb]
        exact ⟨⟨_, Or.inl rfl, rfl, rfl, rfl⟩, rfl⟩
    · rw [if_neg hth]
      exact ⟨⟨_, Or.inl rfl, rfl, rfl, rfl⟩, rfl⟩
  · have h1 : ¬(resp s = -1 ∨ ((currentHand s).length : Int) ≤ resp s) := by
      rw [hrk]; omega
    have h2 : ¬(resp s < 0) := by rw [hrk]; omega
    unfold roundStep
    rw [if_neg hemp, if_neg h1, if_neg h2]
    have h3 : ¬(isPlayable ((currentHand s).getD (resp s).toNat ⟨0, 0⟩) s.table = true) := by
      rw [hrk, Int.toNat_ofNat, hkpl]
      exact Bool.false_ne_true
    rw [if_neg h3]
    exact ⟨rfl, rfl⟩
  · rw [passNotices_count, if_pos ⟨hj, hjne⟩]
  · rw [passNotices_count, if_neg (fun h => h.2 rfl)]

/-- Witness for claim C2 at `cfgPassStuck` with the always-pass oracle:
the step keeps hands and table, increments the counter and emits
exactly the explicit-pass notifications. -/
theorem roundStep_pass_normalization_witness :
    currentHand cfgPassStuck ≠ [] ∧
    (∃ s₁, ((roundStep respPassAll cfgPassStuck).1 = .cont s₁ ∨
            (roundStep respPassAll cfgPassStuck).1 = .blockedR s₁) ∧
      s₁.hands = cfgPassStuck.hands ∧ s₁.table = cfgPassStuck.table ∧
      s₁.passes = cfgPassStuck.passes + 1) ∧
    (roundStep respPassAll cfgPassStuck).2 = passNotices 2 0 := by
  have h := roundStep_pass_normalization respPassAll cfgPassStuck (by decide)
  obtain ⟨hpass, _⟩ := h
  obtain ⟨hstate, hev⟩ := hpass (Or.inl rfl)
  exact ⟨by decide, hstate, hev⟩

/-- Claim C1 (amended): the deadlock scan runs only on explicit-pass
turns (pass sentinel or out-of-range index) whose incremented
consecutive-pass counter reaches the number of players; if no hand has
a playable card the round returns Blocked, and otherwise play continues
with the counter kept at its incremented value (it is NOT reset to 0).
A demoted invalid move increments the counter but never triggers the
deadlock scan and never produces Blocked. -/
theorem roundStep_deadlock_check (resp : RoundState → Int) (s : RoundState)
    (hne : currentHand s ≠ []) :
    ((resp s = -1 ∨ ((currentHand s).length : Int) ≤ resp s) →
      s.hands.length ≤ s.passes + 1 →
      isBlockedAll s.hands s.table = true →
      (roundStep resp s).1 = .blockedR { s with passes := s.passes + 1 }) ∧
    ((resp s = -1 ∨ ((currentHand s).length : Int) ≤ resp s) →
      s.hands.length ≤ s.passes + 1 →
      isBlockedAll s.hands s.table = false →
      (roundStep resp s).1 =
        .cont { s with passes := s.passes + 1,
                       currentIdx := (s.currentIdx + 1) % s.hands.length }) ∧
    (∀ k : Nat, resp s = (k : Int) → k < (currentHand s).length →
      isPlayable ((currentHand s).getD k ⟨0, 0⟩) s.table = false →
      (roundStep resp s).1 =
        .cont { s with passes := s.passes + 1,
                       currentIdx := (s.currentIdx + 1) % s.hands.length }) := by
  have hemp : ¬((currentHand s).isEmpty = true) := by
    simp [List.isEmpty_iff, hne]
  refine ⟨fun hr hth hb => ?_, fun hr hth hb => ?_, fun k hrk hklt hkpl => ?_⟩
  · unfold roundStep
    rw [if_neg hemp, if_pos hr, if_pos hth, if_pos hb]
  · unfold roundStep
    rw [if_neg hemp, if_pos hr, if_pos hth, if_neg (by simp [hb])]
  · have h1 : ¬(resp s = -1 ∨ ((currentHand s).length : Int) ≤ resp s) := by
      rw [hrk]; omega
    have h2 : ¬(resp s < 0) := by rw [hrk]; omega
    unfold roundStep
    rw [if_neg hemp, if_neg h1, if_neg h2]
    rw [if_neg (by rw [hrk, Int.toNat_ofNat, hkpl]; exact Bool.false_ne_true)]

/-- Witness for claim C1 at `cfgInvStuck` (everything blocked) with the
always-index-0 oracle, exercising the demoted-invalid conjunct. -/
theorem roundStep_deadlock_check_witness :
    currentHand cfgInvStuck ≠ [] ∧
    respZero cfgInvStuck = ((0 : Nat) : Int) ∧
    (0 : Nat) < (currentHand cfgInvStuck).length ∧
    isPlayable ((currentHand cfgInvStuck).getD 0 ⟨0, 0⟩) cfgInvStuck.table = false ∧
    (roundStep respZero cfgInvStuck).1 =
      .cont { cfgInvStuck with passes := cfgInvStuck.passes + 1,
                               currentIdx := (cfgInvStuck.currentIdx + 1) %
                                 cfgInvStuck.hands.length } := by
  have h := (roundStep_deadlock_check respZero cfgInvStuck (by decide)).2.2
    0 (by decide) (by decide) (by decide)
  exact ⟨by decide, by decide, by decide, by decide, h⟩

/-- Counterexample to claim C2 as stated: the value `-2` is an
out-of-range index into the 3-card hand of `cfgThree`, yet the turn is
not treated as a pass — the C++ reaches
`player_hands[playerID][card_idx]` with a negative index
(out-of-bounds access, embedded as `crash`), mutating nothing but also
sending no `observePass` notification and not incrementing the
consecutive-pass counter. -/
theorem negative_index_is_not_a_pass :
    respNeg2 cfgThree = -2 ∧
    (currentHand cfgThree).length = 3 ∧
    roundStep respNeg2 cfgThree = (.crash, []) := by decide

/-- If every state with the given hands and table steps to a
continuation with the same hands and table, the round loop never
returns: the `while` loop of `playRound` runs forever. -/
theorem runForever_of_stuck (resp : RoundState → Int) (H : List (List Card)) (T : Table)
    (hstep : ∀ idx passes, ∃ s',
      (roundStep resp ⟨H, T, idx, passes⟩).1 = .cont s' ∧ s'.hands = H ∧ s'.table = T) :
    ∀ idx passes, neverTerminates resp ⟨H, T, idx, passes⟩ := by
  intro idx passes fuel
  induction fuel generalizing idx passes with
  | zero => rfl
  | succ n ih =>
    obtain ⟨s', hs', hH', hT'⟩ := hstep idx passes
    rcases s' with ⟨sh, st, si, sp⟩
    simp only at hH' hT'
    subst hH'; subst hT'
    unfold runRound
    rw [hs']
    exact ih si sp

/-- Every state over the hands and table of `cfgPassStuck` steps to a
continuation under the always-pass oracle: the deadlock scan, when it
runs, keeps finding the still-playable 6 of Diamonds. -/
theorem cfgPassStuck_step (idx passes : Nat) :
    ∃ s', (roundStep respPassAll ⟨[[⟨1, 6⟩], [⟨0, 9⟩]], [(1, 7)], idx, passes⟩).1 = .cont s' ∧
      s'.hands = [[⟨1, 6⟩], [⟨0, 9⟩]] ∧ s'.table = [(1, 7)] := by
  match idx with
  | 0 =>
    refine ⟨⟨[[⟨1, 6⟩], [⟨0, 9⟩]], [(1, 7)], 1, passes + 1⟩, ?_, rfl, rfl⟩
    by_cases hth : (2 : Nat) ≤ passes + 1 <;>
      simp [roundStep, respPassAll, currentHand, isBlockedAll, isPlayable, tableHas, hth]
  | 1 =>
    refine ⟨⟨[[⟨1, 6⟩], [⟨0, 9⟩]], [(1, 7)], 0, passes + 1⟩, ?_, rfl, rfl⟩
    by_cases hth : (2 : Nat) ≤ passes + 1 <;>
      simp [roundStep, respPassAll, currentHand, isBlockedAll, isPlayable, tableHas, hth]
  | (n + 2) =>
    refine ⟨⟨[[⟨1, 6⟩], [⟨0, 9⟩]], [(1, 7)], (n + 3) % 2, passes⟩, ?_, rfl, rfl⟩
    simp [roundStep, currentHand]

/-- Counterexample to claim C3 as stated: with strategies that always
pass while the playable 6 of Diamonds remains in a hand, the round
loop of `playRound` never reaches a terminal state — it runs forever
(the deadlock scan keeps reporting "not blocked", and nothing else can
end the loop). -/
theorem round_can_run_forever :
    neverTerminates respPassAll cfgPassStuck ∧
    isBlockedAll cfgPassStuck.hands cfgPassStuck.table = false ∧
    isPlayable ⟨1, 6⟩ cfgPassStuck.table = true :=
  ⟨runForever_of_stuck respPassAll [[⟨1, 6⟩], [⟨0, 9⟩]] [(1, 7)] cfgPassStuck_step 0 0,
   by decide, by decide⟩

/-- Every state over the hands and table of `cfgInvStuck` steps to a
continuation under the always-index-0 oracle: both cards are in range
but unplayable, so each turn is a demoted invalid move, and the
deadlock scan is never consulted at all. -/
theorem cfgInvStuck_step (idx passes : Nat) :
    ∃ s', (roundStep respZero ⟨[[⟨0, 3⟩], [⟨0, 9⟩]], [(1, 7)], idx, passes⟩).1 = .cont s' ∧
      s'.hands = [[⟨0, 3⟩], [⟨0, 9⟩]] ∧ s'.table = [(1, 7)] := by
  match idx with
  | 0 =>
    refine ⟨⟨[[⟨0, 3⟩], [⟨0, 9⟩]], [(1, 7)], 1, passes + 1⟩, ?_, rfl, rfl⟩
    simp [roundStep, respZero, currentHand, isPlayable, tableHas]
  | 1 =>
    refine ⟨⟨[[⟨0, 3⟩], [⟨0, 9⟩]], [(1, 7)], 0, passes + 1⟩, ?_, rfl, rfl⟩
    simp [roundStep, respZero, currentHand, isPlayable, tableHas]
  | (n + 2) =>
    refine ⟨⟨[[⟨0, 3⟩], [⟨0, 9⟩]], [(1, 7)], (n + 3) % 2, passes⟩, ?_, rfl, rfl⟩
    simp [roundStep, currentHand]

/-- Counterexample to claim C1 as stated: in `cfgInvStuck` no hand
holds any playable card, and every turn is a demoted invalid move, so
the consecutive-pass counter reaches the number of active players (2)
at the second turn and keeps growing; the claim says the deadlock
detector then runs and the round becomes Blocked, but the code never
runs the detector on demoted invalid moves and the round loop runs
forever instead. -/
theorem demoted_moves_never_run_detector :
    neverTerminates respZero cfgInvStuck ∧
    isBlockedAll cfgInvStuck.hands cfgInvStuck.table = true :=
  ⟨runForever_of_stuck respZero [[⟨0, 3⟩], [⟨0, 9⟩]] [(1, 7)] cfgInvStuck_step 0 0,
   by decide⟩

/-- A round step changes the table at most by placing one more card:
the carried state's table is the old table or the old table with one
cell pushed on top. -/
theorem roundStep_table_shape (resp : RoundState → Int) (s s' : RoundState)
    (h : resultState (roundStep resp s).1 = some s') :
    s'.table = s.table ∨ ∃ x y, s'.table = (x, y) :: s.table := by
  simp only [roundStep, apply_ite (Prod.fst (α := StepResult) (β := List Event))] at h
  repeat' split at h
  all_goals simp only [resultState, Option.some.injEq] at h
  all_goals first
    | exact Option.noConfusion h
    | (subst h; left; rfl)
    | (subst h; right; exact ⟨_, _, rfl⟩)

/-- Face-up cells survive a table change of the shape produced by a
round step. -/
theorem tableHas_mono_of_shape {t t' : Table}
    (h : t' = t ∨ ∃ x y, t' = (x, y) :: t) (a b : Nat)
    (hm : tableHas t a b = true) : tableHas t' a b = true := by
  rcases h with rfl | ⟨x, y, rfl⟩
  · exact hm
  · simp only [tableHas, decide_eq_true_eq] at hm ⊢
    exact List.mem_cons_of_mem _ hm

/-- Any face-up cell at the start of a round run is still face-up in
the terminal state. -/
theorem runRound_table_mono (resp : RoundState → Int) (fuel : Nat) (s : RoundState)
    (out : RoundOutcome) (sF : RoundState)
    (h : runRound resp fuel s = some (out, sF)) :
    ∀ a b, tableHas s.table a b = true → tableHas sF.table a b = true := by
  induction fuel generalizing s with
  | zero => exact Option.noConfusion h
  | succ n ih =>
    unfold runRound at h
    rcases hstep : (roundStep resp s).1 with s1 | ⟨w, s1⟩ | s1 | _ <;>
      simp only [hstep] at h
    · intro a b hm
      exact ih s1 h a b
        (tableHas_mono_of_shape (roundStep_table_shape resp s s1 (by rw [hstep]; rfl)) a b hm)
    · rw [Option.some.injEq, Prod.mk.injEq] at h
      obtain ⟨-, rfl⟩ := h
      exact tableHas_mono_of_shape (roundStep_table_shape resp s s1 (by rw [hstep]; rfl))
    · rw [Option.some.injEq, Prod.mk.injEq] at h
      obtain ⟨-, rfl⟩ := h
      exact tableHas_mono_of_shape (roundStep_table_shape resp s s1 (by rw [hstep]; rfl))
    · rw [Option.some.injEq, Prod.mk.injEq] at h
      obtain ⟨-, rfl⟩ := h
      exact fun a b hm => hm

/-- Claim C5: at the start of each round the table is reset so that
exactly the anchor cell (Diamonds, rank 7) is face-up; and within a
round the table is monotonic non-decreasing — a cell that is face-up
at any point is still face-up in the round's terminal state, whatever
the strategies do. -/
theorem table_reset_and_monotone :
    (∀ a b, tableHas resetTableLayout a b = true ↔ (a = 1 ∧ b = 7)) ∧
    (∀ (resp : RoundState → Int) (fuel : Nat) (s : RoundState) (out : RoundOutcome)
        (sF : RoundState), runRound resp fuel s = some (out, sF) →
      ∀ a b, tableHas s.table a b = true → tableHas sF.table a b = true) := by
  constructor
  · intro a b
    simp [tableHas, resetTableLayout, Prod.ext_iff]
  · exact fun resp fuel s out sF h => runRound_table_mono resp fuel s out sF h

/-- Witness for claim C5: a one-player round that stops after one play;
the anchor cell face-up at round start is still face-up at the end. -/
theorem table_reset_and_monotone_witness :
    runRound respZero 1 cfgSolo =
      some (.resolvedO 0, ⟨[[]], [(1, 6), (1, 7)], 0, 0⟩) ∧
    tableHas cfgSolo.table 1 7 = true ∧
    tableHas (⟨[[]], [(1, 6), (1, 7)], 0, 0⟩ : RoundState).table 1 7 = true :=
  ⟨by decide, by decide,
   table_reset_and_monotone.2 respZero 1 cfgSolo (.resolvedO 0)
     ⟨[[]], [(1, 6), (1, 7)], 0, 0⟩ (by decide) 1 7 (by decide)⟩

/-- Pointwise reading of the `player_total_cards[playerID] += cardsLeft`
loop on list-encoded totals. -/
theorem getD_zipWith_add (l1 l2 : List Nat) (p : Nat)
    (h1 : p < l1.length) (h2 : l2.length = l1.length) :
    (List.zipWith (fun a b => a + b) l1 l2).getD p 0 = l1.getD p 0 + l2.getD p 0 := by
  induction l1 generalizing l2 p with
  | nil => exact absurd h1 (by simp)
  | cons a t1 ih =>
    cases l2 with
    | nil => exact absurd h2 (by simp)
    | cons b t2 =>
      cases p with
      | zero => simp
      | succ q =>
        simp only [List.zipWith_cons_cons, List.getD_cons_succ]
        exact ih t2 q (by simpa using h1) (by simpa using h2)

/-- The winner returned by a resolved round step has an empty hand in
the carried state. -/
theorem roundStep_resolved_hand_empty (resp : RoundState → Int) (s : RoundState)
    (w : Nat) (s' : RoundState)
    (h : (roundStep resp s).1 = .resolvedR w s') :
    s'.hands.getD w [] = [] := by
  simp only [roundStep, apply_ite (Prod.fst (α := StepResult) (β := List Event))] at h
  repeat' split at h
  all_goals try exact StepResult.noConfusion h
  rename_i hne hq hr hpl hemp
  injection h with hw hs
  subst hw; subst hs
  have hlt : s.currentIdx < s.hands.length := by
    by_contra hge
    exact hne (by simp [currentHand, List.getElem?_eq_none (Nat.le_of_not_lt hge)])
  simp only [List.getD_eq_getElem?_getD, List.getElem?_set_self hlt, Option.getD_some]
  exact List.isEmpty_iff.mp hemp

/-- The winner of a completed round run has an empty hand in the
terminal state. -/
theorem runRound_resolved_hand_empty (resp : RoundState → Int) (fuel : Nat)
    (s sF : RoundState) (w : Nat)
    (h : runRound resp fuel s = some (.resolvedO w, sF)) :
    sF.hands.getD w [] = [] := by
  induction fuel generalizing s with
  | zero => exact Option.noConfusion h
  | succ n ih =>
    unfold runRound at h
    rcases hstep : (roundStep resp s).1 with s1 | ⟨w', s1⟩ | s1 | _ <;>
      simp only [hstep] at h
    · exact ih s1 h
    · rw [Option.some.injEq, Prod.mk.injEq] at h
      obtain ⟨hw, rfl⟩ := h
      injection hw with hw'
      subst hw'
      exact roundStep_resolved_hand_empty resp s w' s1 hstep
    · rw [Option.some.injEq, Prod.mk.injEq] at h
      exact RoundOutcome.noConfusion h.1
    · rw [Option.some.injEq, Prod.mk.injEq] at h
      exact RoundOutcome.noConfusion h.1

/-- Claim C7: on a resolved round the winner's rounds-won count is
incremented by exactly one and nobody else's changes; on a blocked
round nobody's rounds-won changes; in both cases every slot's remaining
hand size is added to its lifetime total; and a resolved round's
winner ends the round with an empty hand (contributing 0). -/
theorem round_tally_per_outcome :
    (∀ (ms : MatchState) (w : Nat) (rem : List Nat), w < ms.roundsWon.length →
      (tallyRound ms (some w) rem).roundsWon.getD w 0 = ms.roundsWon.getD w 0 + 1) ∧
    (∀ (ms : MatchState) (w : Nat) (rem : List Nat) (p : Nat), p ≠ w →
      (tallyRound ms (some w) rem).roundsWon.getD p 0 = ms.roundsWon.getD p 0) ∧
    (∀ (ms : MatchState) (rem : List Nat),
      (tallyRound ms none rem).roundsWon = ms.roundsWon) ∧
    (∀ (ms : MatchState) (w : Option Nat) (rem : List Nat) (p : Nat),
      p < ms.totals.length → rem.length = ms.totals.length →
      (tallyRound ms w rem).totals.getD p 0 = ms.totals.getD p 0 + rem.getD p 0) ∧
    (∀ (resp : RoundState → Int) (fuel : Nat) (s sF : RoundState) (w : Nat),
      runRound resp fuel s = some (.resolvedO w, sF) → sF.hands.getD w [] = []) := by
  refine ⟨fun ms w rem hw => ?_, fun ms w rem p hp => ?_, fun ms rem => rfl,
    fun ms w rem p hp hlen => getD_zipWith_add ms.totals rem p hp hlen,
    fun resp fuel s sF w h => runRound_resolved_hand_empty resp fuel s sF w h⟩
  · simp only [tallyRound, List.getD_eq_getElem?_getD, List.getElem?_set_self hw,
      Option.getD_some]
  · simp only [tallyRound, List.getD_eq_getElem?_getD,
      List.getElem?_set_ne (fun hh => hp hh.symm)]

/-- Witness for claim C7 at a concrete solved round and a concrete
tally: the winner's hand is empty and the winner's rounds-won counter
moves from 0 to 1. -/
theorem round_tally_per_outcome_witness :
    (⟨[[]], [(1, 6), (1, 7)], 0, 0⟩ : RoundState).hands.getD 0 [] = [] ∧
    (0 < 2 ∧
     (tallyRound ⟨[0, 0], [0, 0], 0⟩ (some 0) [0, 3]).roundsWon.getD 0 0 =
       (⟨[0, 0], [0, 0], 0⟩ : MatchState).roundsWon.getD 0 0 + 1) :=
  ⟨round_tally_per_outcome.2.2.2.2 respZero 1 cfgSolo
     ⟨[[]], [(1, 6), (1, 7)], 0, 0⟩ 0 (by decide),
   ⟨by decide, round_tally_per_outcome.1 ⟨[0, 0], [0, 0], 0⟩ 0 [0, 3] (by decide)⟩⟩

/-- One tally never decreases any slot's lifetime total. -/
theorem tallyRound_totals_mono (ms : MatchState) (w : Option Nat) (rem : List Nat)
    (hlen : rem.length = ms.totals.length) (p : Nat) :
    ms.totals.getD p 0 ≤ (tallyRound ms w rem).totals.getD p 0 := by
  have htot : (tallyRound ms w rem).totals = List.zipWith (fun a b => a + b) ms.totals rem :=
    rfl
  by_cases hp : p < ms.totals.length
  · rw [htot, getD_zipWith_add ms.totals rem p hp hlen]
    exact Nat.le_add_right _ _
  · rw [List.getD_eq_default _ _ (Nat.le_of_not_lt hp)]
    exact Nat.zero_le _

/-- A tally preserves the length of the totals list when the remaining
list has matching length. -/
theorem tallyRound_totals_length (ms : MatchState) (w : Option Nat) (rem : List Nat)
    (hlen : rem.length = ms.totals.length) :
    (tallyRound ms w rem).totals.length = ms.totals.length := by
  simp [tallyRound, hlen]

/-- Claim C6: each round's tally adds exactly the remaining hand sizes
to the lifetime totals (so totals never decrease across the match), a
match loop that returns has reached the threshold, and the loop stops
at the first round whose tally reaches the threshold — never later. -/
theorem match_totals_accumulate_and_halt :
    (∀ (ms : MatchState) (w : Option Nat) (rem : List Nat) (p : Nat),
      p < ms.totals.length → rem.length = ms.totals.length →
      (tallyRound ms w rem).totals.getD p 0 = ms.totals.getD p 0 + rem.getD p 0) ∧
    (∀ (outcome : Nat → Option Nat × List Nat) (fuel : Nat) (ms msF : MatchState),
      runMultipleRounds outcome fuel ms = some msF →
      thresholdReached msF.totals = true) ∧
    (∀ (outcome : Nat → Option Nat × List Nat) (fuel : Nat) (ms : MatchState),
      thresholdReached (tallyRound ms (outcome ms.totalRounds).1
        (outcome ms.totalRounds).2).totals = true →
      runMultipleRounds outcome (fuel + 1) ms =
        some (tallyRound ms (outcome ms.totalRounds).1 (outcome ms.totalRounds).2)) ∧
    (∀ (outcome : Nat → Option Nat × List Nat) (fuel : Nat) (ms msF : MatchState),
      (∀ k, ((outcome k).2).length = ms.totals.length) →
      runMultipleRounds outcome fuel ms = some msF →
      ∀ p, ms.totals.getD p 0 ≤ msF.totals.getD p 0) := by
  refine ⟨fun ms w rem p hp hlen => getD_zipWith_add ms.totals rem p hp hlen,
    fun outcome fuel => ?_, fun outcome fuel ms hth => ?_, fun outcome fuel => ?_⟩
  · induction fuel with
    | zero => exact fun ms msF h => Option.noConfusion h
    | succ n ih =>
      intro ms msF h
      unfold runMultipleRounds at h
      by_cases hth : thresholdReached (tallyRound ms (outcome ms.totalRounds).1
          (outcome ms.totalRounds).2).totals = true
      · rw [if_pos hth, Option.some.injEq] at h
        subst h
        exact hth
      · rw [if_neg hth] at h
        exact ih _ _ h
  · unfold runMultipleRounds
    rw [if_pos hth]
  · induction fuel with
    | zero => exact fun ms msF hk h => Option.noConfusion h
    | succ n ih =>
      intro ms msF hk h
      unfold runMultipleRounds at h
      by_cases hth : thresholdReached (tallyRound ms (outcome ms.totalRounds).1
          (outcome ms.totalRounds).2).totals = true
      · rw [if_pos hth, Option.some.injEq] at h
        subst h
        exact tallyRound_totals_mono ms _ _ (hk _)
      · rw [if_neg hth] at h
        intro p
        refine Nat.le_trans (tallyRound_totals_mono ms _ _ (hk _) p) (ih _ msF ?_ h p)
        intro k
        rw [tallyRound_totals_length ms _ _ (hk _)]
        exact hk k

/-- Witness for claim C6: a match whose first round already pushes
player 1 to the threshold stops after exactly that round. -/
theorem match_totals_accumulate_and_halt_witness :
    runMultipleRounds (fun _ => (some 0, [0, 5000])) 1 ⟨[0, 0], [0, 0], 0⟩ =
      some ⟨[0, 5000], [1, 0], 1⟩ ∧
    thresholdReached (⟨[0, 5000], [1, 0], 1⟩ : MatchState).totals = true :=
  ⟨by decide,
   match_totals_accumulate_and_halt.2.1 (fun _ => (some 0, [0, 5000])) 1
     ⟨[0, 0], [0, 0], 0⟩ ⟨[0, 5000], [1, 0], 1⟩ (by decide)⟩

/-- Reading the key just written at the head of an association list. -/
theorem lookupA_cons_self {α : Type} (k : Nat) (v : α) (tl : List (Nat × α)) :
    lookupA ((k, v) :: tl) k = some v := by
  simp [lookupA]

/-- Reading past a head entry with a different key. -/
theorem lookupA_cons_ne {α : Type} (k' : Nat) (v' : α) (tl : List (Nat × α)) (j : Nat)
    (h : k' ≠ j) : lookupA ((k', v') :: tl) j = lookupA tl j := by
  simp [lookupA, h]

/-- Overwriting the head entry of an association list. -/
theorem setA_cons_eq {α : Type} (k : Nat) (v v' : α) (tl : List (Nat × α)) :
    setA ((k, v') :: tl) k v = (k, v) :: tl := by
  simp [setA]

/-- Writing below a head entry with a different key. -/
theorem setA_cons_ne {α : Type} (k k' : Nat) (v v' : α) (tl : List (Nat × α))
    (h : k' ≠ k) : setA ((k', v') :: tl) k v = (k', v') :: setA tl k v := by
  simp [setA, h]

/-- Writing a key in an association list makes it readable. -/
theorem lookupA_setA_self {α : Type} (m : List (Nat × α)) (k : Nat) (v : α) :
    lookupA (setA m k v) k = some v := by
  induction m with
  | nil => simp [setA, lookupA]
  | cons hd tl ih =>
    obtain ⟨k', v'⟩ := hd
    by_cases hk : k' = k
    · subst hk
      rw [setA_cons_eq, lookupA_cons_self]
    · rw [setA_cons_ne k k' v v' tl hk, lookupA_cons_ne k' v' _ k hk]
      exact ih

/-- Writing one key leaves every other key unchanged. -/
theorem lookupA_setA_ne {α : Type} (m : List (Nat × α)) (k : Nat) (v : α) (j : Nat)
    (hj : j ≠ k) : lookupA (setA m k v) j = lookupA m j := by
  induction m with
  | nil =>
    show lookupA ((k, v) :: []) j = lookupA [] j
    exact lookupA_cons_ne k v [] j (fun h => hj h.symm)
  | cons hd tl ih =>
    obtain ⟨k', v'⟩ := hd
    by_cases hk : k' = k
    · subst hk
      rw [setA_cons_eq, lookupA_cons_ne k' v _ j (fun h => hj h.symm),
        lookupA_cons_ne k' v' tl j (fun h => hj h.symm)]
    · rw [setA_cons_ne k k' v v' tl hk]
      by_cases hj' : k' = j
      · subst hj'
        rw [lookupA_cons_self, lookupA_cons_self]
      · rw [lookupA_cons_ne k' v' _ j hj', lookupA_cons_ne k' v' tl j hj']
        exact ih

/-- Registration writes exactly the given strategy into the strategy
map. -/
theorem registerStrategy_strategies (p : Nat) (tag : StrategyTag) (st : MapperState) :
    (registerStrategy p tag st).strategies = setA st.strategies p tag := by
  simp only [registerStrategy, apply_ite MapperState.strategies,
    apply_ite MapperState.roundsWon, apply_ite MapperState.totals]
  simp

/-- Registration calls the strategy's initialization hook with the
slot's id, immediately and exactly once. -/
theorem registerStrategy_initCalls (p : Nat) (tag : StrategyTag) (st : MapperState) :
    (registerStrategy p tag st).initCalls = st.initCalls ++ [p] := by
  simp only [registerStrategy, apply_ite MapperState.initCalls,
    apply_ite MapperState.roundsWon, apply_ite MapperState.totals]
  simp

/-- Registration either leaves the totals map alone or zero-fills the
registered slot. -/
theorem registerStrategy_totals_shape (p : Nat) (tag : StrategyTag) (st : MapperState) :
    (registerStrategy p tag st).totals = st.totals ∨
    (registerStrategy p tag st).totals = setA st.totals p 0 := by
  simp only [registerStrategy, apply_ite MapperState.totals,
    apply_ite MapperState.roundsWon]
  by_cases h1 : (lookupA st.totals p).isNone = true <;> simp [h1]

/-- Registration either leaves the rounds-won map alone or zero-fills
the registered slot. -/
theorem registerStrategy_roundsWon_shape (p : Nat) (tag : StrategyTag) (st : MapperState) :
    (registerStrategy p tag st).roundsWon = st.roundsWon ∨
    (registerStrategy p tag st).roundsWon = setA st.roundsWon p 0 := by
  simp only [registerStrategy, apply_ite MapperState.roundsWon,
    apply_ite MapperState.totals]
  by_cases h1 : (lookupA st.totals p).isNone = true <;>
    by_cases h2 : (lookupA st.roundsWon p).isNone = true <;> simp [h1, h2]

/-- A slot with no statistics entry gets a zeroed totals entry on
registration. -/
theorem registerStrategy_totals_none (p : Nat) (tag : StrategyTag) (st : MapperState)
    (h : lookupA st.totals p = none) :
    lookupA (registerStrategy p tag st).totals p = some 0 := by
  simp only [registerStrategy, apply_ite MapperState.totals,
    apply_ite MapperState.roundsWon]
  simp [h, lookupA_setA_self]

/-- A slot with no rounds-won entry gets a zeroed rounds-won entry on
registration. -/
theorem registerStrategy_roundsWon_none (p : Nat) (tag : StrategyTag) (st : MapperState)
    (h : lookupA st.roundsWon p = none) :
    lookupA (registerStrategy p tag st).roundsWon p = some 0 := by
  simp only [registerStrategy, apply_ite MapperState.roundsWon,
    apply_ite MapperState.totals]
  simp [h, lookupA_setA_self]

/-- Unfolding one step of the registration loop. -/
theorem ensureList_cons (k : Nat) (rest : List Nat) (st : MapperState) :
    ensureList (k :: rest) st =
      ensureList rest
        (if (lookupA st.strategies k).isNone then registerStrategy k .randomS st else st) :=
  rfl

/-- The registration loop does not touch slots it never visits. -/
theorem ensureList_preserves (l : List Nat) (st : MapperState) (i : Nat)
    (hni : ∀ k ∈ l, k ≠ i) :
    lookupA (ensureList l st).strategies i = lookupA st.strategies i ∧
    lookupA (ensureList l st).totals i = lookupA st.totals i ∧
    lookupA (ensureList l st).roundsWon i = lookupA st.roundsWon i ∧
    (i ∈ st.initCalls → i ∈ (ensureList l st).initCalls) := by
  induction l generalizing st with
  | nil => exact ⟨rfl, rfl, rfl, fun h => h⟩
  | cons k rest ih =>
    have hki : k ≠ i := hni k (List.mem_cons_self _ _)
    rw [ensureList_cons]
    by_cases hc : (lookupA st.strategies k).isNone = true
    · rw [if_pos hc]
      have ih' := ih (registerStrategy k .randomS st)
        (fun k' hk' => hni k' (List.mem_cons_of_mem _ hk'))
      refine ⟨?_, ?_, ?_, fun hm => ?_⟩
      · rw [ih'.1, registerStrategy_strategies, lookupA_setA_ne _ _ _ _ (Ne.symm hki)]
      · rw [ih'.2.1]
        rcases registerStrategy_totals_shape k .randomS st with he | he <;> rw [he]
        rw [lookupA_setA_ne _ _ _ _ (Ne.symm hki)]
      · rw [ih'.2.2.1]
        rcases registerStrategy_roundsWon_shape k .randomS st with he | he <;> rw [he]
        rw [lookupA_setA_ne _ _ _ _ (Ne.symm hki)]
      · exact ih'.2.2.2
          (by rw [registerStrategy_initCalls]; exact List.mem_append_left _ hm)
    · rw [if_neg hc]
      exact ih st (fun k' hk' => hni k' (List.mem_cons_of_mem _ hk'))

/-- A slot already holding a strategy keeps exactly that strategy
through the registration loop. -/
theorem ensureList_keeps_some (l : List Nat) (st : MapperState) (i : Nat) (v : StrategyTag)
    (h : lookupA st.strategies i = some v) :
    lookupA (ensureList l st).strategies i = some v := by
  induction l generalizing st with
  | nil => exact h
  | cons k rest ih =>
    rw [ensureList_cons]
    by_cases hc : (lookupA st.strategies k).isNone = true
    · rw [if_pos hc]
      have hki : k ≠ i := by
        intro he
        subst he
        rw [h] at hc
        exact Option.noConfusion (Option.isNone_iff_eq_none.mp hc)
      refine ih (registerStrategy k .randomS st) ?_
      rw [registerStrategy_strategies, lookupA_setA_ne _ _ _ _ (Ne.symm hki)]
      exact h
    · rw [if_neg hc]
      exact ih st h

/-- Every visited slot holds some strategy after the registration
loop. -/
theorem ensureList_some (l : List Nat) (st : MapperState) (i : Nat) (hmem : i ∈ l) :
    (lookupA (ensureList l st).strategies i).isSome = true := by
  induction l generalizing st with
  | nil => cases hmem
  | cons k rest ih =>
    rw [ensureList_cons]
    rcases List.mem_cons.mp hmem with rfl | hmem'
    · by_cases hc : (lookupA st.strategies i).isNone = true
      · rw [if_pos hc]
        rw [ensureList_keeps_some rest _ i .randomS
          (by rw [registerStrategy_strategies]; exact lookupA_setA_self _ _ _)]
        rfl
      · rw [if_neg hc]
        have hsome : lookupA st.strategies i ≠ none := fun he =>
          hc (by rw [he]; rfl)
        obtain ⟨v, hv⟩ := Option.ne_none_iff_exists'.mp hsome
        rw [ensureList_keeps_some rest st i v hv]
        rfl
    · by_cases hc : (lookupA st.strategies k).isNone = true
      · rw [if_pos hc]
        exact ih _ hmem'
      · rw [if_neg hc]
        exact ih st hmem'

/-- A visited slot with no strategy gets the default `RandomStrategy`,
an initialization call with its id, and zeroed statistics entries when
it had none. -/
theorem ensureList_registers (l : List Nat) (st : MapperState) (i : Nat)
    (hmem : i ∈ l) (hnd : l.Nodup) (habs : lookupA st.strategies i = none) :
    lookupA (ensureList l st).strategies i = some .randomS ∧
    i ∈ (ensureList l st).initCalls ∧
    (lookupA st.totals i = none → lookupA (ensureList l st).totals i = some 0) ∧
    (lookupA st.roundsWon i = none → lookupA (ensureList l st).roundsWon i = some 0) := by
  induction l generalizing st with
  | nil => cases hmem
  | cons k rest ih =>
    rw [ensureList_cons]
    have hnotk : k ∉ rest := (List.nodup_cons.mp hnd).1
    have hnd' : rest.Nodup := (List.nodup_cons.mp hnd).2
    rcases List.mem_cons.mp hmem with rfl | hmem'
    · rw [if_pos (by simp [habs])]
      have hrest_ne : ∀ k' ∈ rest, k' ≠ i := fun k' hk' he => hnotk (he ▸ hk')
      have hpres := ensureList_preserves rest (registerStrategy i .randomS st) i hrest_ne
      refine ⟨?_, ?_, fun ht => ?_, fun hr => ?_⟩
      · rw [hpres.1, registerStrategy_strategies, lookupA_setA_self]
      · exact hpres.2.2.2
          (by rw [registerStrategy_initCalls]; exact List.mem_append_right _ (by simp))
      · rw [hpres.2.1]
        exact registerStrategy_totals_none i .randomS st ht
      · rw [hpres.2.2.1]
        exact registerStrategy_roundsWon_none i .randomS st hr
    · have hki : k ≠ i := fun he => hnotk (he ▸ hmem')
      by_cases hc : (lookupA st.strategies k).isNone = true
      · rw [if_pos hc]
        have habs' : lookupA (registerStrategy k .randomS st).strategies i = none := by
          rw [registerStrategy_strategies, lookupA_setA_ne _ _ _ _ (Ne.symm hki)]
          exact habs
        have ih' := ih (registerStrategy k .randomS st) hmem' hnd' habs'
        refine ⟨ih'.1, ih'.2.1, fun ht => ih'.2.2.1 ?_, fun hr => ih'.2.2.2 ?_⟩
        · rcases registerStrategy_totals_shape k .randomS st with he | he <;> rw [he]
          · exact ht
          · rw [lookupA_setA_ne _ _ _ _ (Ne.symm hki)]
            exact ht
        · rcases registerStrategy_roundsWon_shape k .randomS st with he | he <;> rw [he]
          · exact hr
          · rw [lookupA_setA_ne _ _ _ _ (Ne.symm hki)]
            exact hr
      · rw [if_neg hc]
        exact ih st hmem' hnd' habs

/-- Claim C10: registering a strategy immediately calls its
initialization hook with the slot's permanent id and writes it into
the strategy map, a slot without statistics entries gets zeroed ones;
and after `ensureStrategies numPlayers` every slot below `numPlayers`
holds a strategy — a slot that had none holds the default
`RandomStrategy`, its initialization hook having been called with its
id and its statistics zero-created — so the count-indexed entry points
never fail for lack of a strategy. -/
theorem ensure_strategies_equip_all_slots :
    (∀ (st : MapperState) (p : Nat) (tag : StrategyTag),
      (registerStrategy p tag st).initCalls = st.initCalls ++ [p]) ∧
    (∀ (st : MapperState) (p : Nat) (tag : StrategyTag),
      lookupA (registerStrategy p tag st).strategies p = some tag) ∧
    (∀ (st : MapperState) (p : Nat) (tag : StrategyTag),
      lookupA st.totals p = none → lookupA (registerStrategy p tag st).totals p = some 0) ∧
    (∀ (st : MapperState) (p : Nat) (tag : StrategyTag),
      lookupA st.roundsWon p = none →
      lookupA (registerStrategy p tag st).roundsWon p = some 0) ∧
    (∀ (n : Nat) (st : MapperState) (i : Nat), i < n →
      (lookupA (ensureStrategies n st).strategies i).isSome = true) ∧
    (∀ (n : Nat) (st : MapperState) (i : Nat), i < n →
      lookupA st.strategies i = none →
      lookupA (ensureStrategies n st).strategies i = some .randomS ∧
      i ∈ (ensureStrategies n st).initCalls ∧
      (lookupA st.totals i = none → lookupA (ensureStrategies n st).totals i = some 0) ∧
      (lookupA st.roundsWon i = none →
       lookupA (ensureStrategies n st).roundsWon i = some 0)) := by
  refine ⟨fun st p tag => registerStrategy_initCalls p tag st,
    fun st p tag => ?_,
    fun st p tag h => registerStrategy_totals_none p tag st h,
    fun st p tag h => registerStrategy_roundsWon_none p tag st h,
    fun n st i hi => ensureList_some (List.range n) st i (List.mem_range.mpr hi),
    fun n st i hi habs => ensureList_registers (List.range n) st i
      (List.mem_range.mpr hi) (List.nodup_range n) habs⟩
  rw [registerStrategy_strategies]
  exact lookupA_setA_self st.strategies p tag

/-- Witness for claim C10 on a fresh mapper with two slots: slot 0 gets
the default strategy and an initialization call. -/
theorem ensure_strategies_equip_all_slots_witness :
    lookupA (ensureStrategies 2 ⟨[], [], [], []⟩).strategies 0 = some .randomS ∧
    0 ∈ (ensureStrategies 2 ⟨[], [], [], []⟩).initCalls ∧
    lookupA (ensureStrategies 2 ⟨[], [], [], []⟩).totals 0 = some 0 := by
  have h := ensure_strategies_equip_all_slots.2.2.2.2.2 2 ⟨[], [], [], []⟩ 0
    (by decide) (by decide)
  exact ⟨h.1, h.2.1, h.2.2.1 (by decide)⟩

/-- Unfolding one step of the cyclic distance function. -/
theorem distTo_succ (hands : List (List Card)) (t : Table) (n idx fuel : Nat) :
    distTo hands t n idx (fuel + 1) =
      if handHasPlayable (hands.getD (idx % n) []) t then 0
      else distTo hands t n ((idx + 1) % n) fuel + 1 := rfl

/-- The cyclic distance never exceeds its fuel. -/
theorem distTo_le (hands : List (List Card)) (t : Table) (n : Nat) :
    ∀ (fuel idx : Nat), distTo hands t n idx fuel ≤ fuel := by
  intro fuel
  induction fuel with
  | zero => intro idx; exact Nat.le_refl 0
  | succ m ih =>
    intro idx
    rw [distTo_succ]
    split
    · exact Nat.zero_le _
    · exact Nat.succ_le_succ (ih _)

/-- Once a playable-holding position is within reach of the fuel, more
fuel does not increase the distance. -/
theorem distTo_stable (hands : List (List Card)) (t : Table) (n : Nat) :
    ∀ (fuel idx : Nat),
      (∃ k, k < fuel ∧ handHasPlayable (hands.getD ((idx + k) % n) []) t = true) →
      distTo hands t n idx (fuel + 1) ≤ distTo hands t n idx fuel := by
  intro fuel
  induction fuel with
  | zero => intro idx ⟨k, hk, _⟩; omega
  | succ m ih =>
    intro idx ⟨k, hk, hhit⟩
    by_cases hcur : handHasPlayable (hands.getD (idx % n) []) t = true
    · have l1 : distTo hands t n idx (m + 1 + 1) = 0 := by
        rw [distTo_succ, if_pos hcur]
      have l2 : distTo hands t n idx (m + 1) = 0 := by
        rw [distTo_succ, if_pos hcur]
      rw [l1, l2]
    · have hk0 : k ≠ 0 := by
        intro he
        subst he
        rw [Nat.add_zero] at hhit
        exact hcur hhit
      obtain ⟨k', rfl⟩ : ∃ k', k = k' + 1 := ⟨k - 1, by omega⟩
      have hhit' : handHasPlayable (hands.getD (((idx + 1) % n + k') % n) []) t = true := by
        rw [Nat.mod_add_mod]
        have harith : idx + 1 + k' = idx + (k' + 1) := by omega
        rw [harith]
        exact hhit
      have hrec := ih ((idx + 1) % n) ⟨k', by omega, hhit'⟩
      have l1 : distTo hands t n idx (m + 1 + 1) =
          distTo hands t n ((idx + 1) % n) (m + 1) + 1 := by
        rw [distTo_succ, if_neg hcur]
      have l2 : distTo hands t n idx (m + 1) =
          distTo hands t n ((idx + 1) % n) m + 1 := by
        rw [distTo_succ, if_neg hcur]
      rw [l1, l2]
      exact Nat.succ_le_succ hrec

/-- Advancing past a position with no playable card strictly decreases
the distance to the next playable-holding position. -/
theorem distTo_dec (hands : List (List Card)) (t : Table) (n idx : Nat)
    (hidx : idx < n)
    (hcur : handHasPlayable (hands.getD idx []) t = false)
    (hex : ∃ j, j < n ∧ handHasPlayable (hands.getD j []) t = true) :
    distTo hands t n ((idx + 1) % n) n < distTo hands t n idx n := by
  obtain ⟨j, hj, hhit⟩ := hex
  have hne : j ≠ idx := by
    intro he
    rw [he, hcur] at hhit
    exact Bool.noConfusion hhit
  have hn2 : 2 ≤ n := by omega
  obtain ⟨m, rfl⟩ : ∃ m, n = m + 1 := ⟨n - 1, by omega⟩
  have hidxmod : idx % (m + 1) = idx := Nat.mod_eq_of_lt hidx
  have step1 : distTo hands t (m + 1) idx (m + 1) =
      distTo hands t (m + 1) ((idx + 1) % (m + 1)) m + 1 := by
    rw [distTo_succ, hidxmod, if_neg (by rw [hcur]; exact Bool.false_ne_true)]
  have hkex : ∃ k, k < m ∧
      handHasPlayable (hands.getD (((idx + 1) % (m + 1) + k) % (m + 1)) []) t = true := by
    refine ⟨(m + 1 + j - idx - 1) % (m + 1), ?_, ?_⟩
    · rcases Nat.lt_or_ge (m + 1 + j - idx - 1) (m + 1) with hc | hc
      · rw [Nat.mod_eq_of_lt hc]
        omega
      · rw [Nat.mod_eq_sub_mod hc, Nat.mod_eq_of_lt (by omega)]
        omega
    · have hmod : ((idx + 1) % (m + 1) + (m + 1 + j - idx - 1) % (m + 1)) % (m + 1) =
          (idx + 1 + (m + 1 + j - idx - 1)) % (m + 1) :=
        (Nat.add_mod (idx + 1) (m + 1 + j - idx - 1) (m + 1)).symm
      have harith : idx + 1 + (m + 1 + j - idx - 1) = m + 1 + j := by omega
      have hjmod : (m + 1 + j) % (m + 1) = j := by
        rw [Nat.add_mod_left, Nat.mod_eq_of_lt hj]
      rw [hmod, harith, hjmod]
      exact hhit
  have hstable := distTo_stable hands t (m + 1) m ((idx + 1) % (m + 1)) hkex
  rw [step1]
  exact Nat.lt_succ_of_le hstable



/-- The deadlock scan fails exactly when some hand holds a playable
card. -/
theorem isBlockedAll_eq_false_iff (hands : List (List Card)) (t : Table) :
    isBlockedAll hands t = false ↔ ∃ h ∈ hands, handHasPlayable h t = true := by
  simp [isBlockedAll, handHasPlayable, List.all_eq_true, List.any_eq_true]

/-- The secondary measure is bounded by the number of players. -/
theorem nu_le (s : RoundState) : nu s ≤ s.hands.length := by
  unfold nu
  split
  · omega
  · exact distTo_le _ _ _ _ _

/-- Replacing one hand trades its card count for the new hand's count
in the total. -/
theorem sum_length_set (l : List (List Card)) (i : Nat) (a : List Card) (h : i < l.length) :
    ((l.set i a).map List.length).sum + (l.getD i []).length =
      (l.map List.length).sum + a.length := by
  induction l generalizing i with
  | nil => cases h
  | cons hd tl ih =>
    cases i with
    | zero =>
      simp only [List.set, List.getD_cons_zero, List.map_cons, List.sum_cons]
      omega
    | succ j =>
      simp only [List.set, List.getD_cons_succ, List.map_cons, List.sum_cons]
      have := ih j (by simpa using h)
      omega

/-- In-range reads of a hand list coincide with indexed access. -/
theorem getD_eq_getElem_of_lt (l : List (List Card)) (i : Nat) (h : i < l.length) :
    l.getD i [] = l[i] := by
  simp [List.getD_eq_getElem?_getD, List.getElem?_eq_getElem h]

/-- A failed deadlock scan yields the index of a player holding a
playable card. -/
theorem exists_playable_index (hands : List (List Card)) (t : Table)
    (hb : isBlockedAll hands t = false) :
    ∃ j, j < hands.length ∧ handHasPlayable (hands.getD j []) t = true := by
  obtain ⟨h, hmem, hpl⟩ := (isBlockedAll_eq_false_iff hands t).mp hb
  obtain ⟨j, hj, rfl⟩ := List.mem_iff_getElem.mp hmem
  exact ⟨j, hj, by rw [getD_eq_getElem_of_lt hands j hj]; exact hpl⟩



/-- Playing a card strictly decreases the termination measure. -/
theorem mu_lt_of_play (s : RoundState) (hand' : List Card) (t' : Table) (i' : Nat)
    (hidx : s.currentIdx < s.hands.length)
    (hT : hand'.length + 1 = (currentHand s).length) :
    mu ⟨s.hands.set s.currentIdx hand', t', i', 0⟩ < mu s := by
  have hsum := sum_length_set s.hands s.currentIdx hand' hidx
  have hnu' : nu ⟨s.hands.set s.currentIdx hand', t', i', 0⟩ ≤ s.hands.length := by
    have h := nu_le ⟨s.hands.set s.currentIdx hand', t', i', 0⟩
    simpa [List.length_set] using h
  have hgd : s.hands.getD s.currentIdx [] = currentHand s := rfl
  rw [hgd] at hsum
  have hS : ((s.hands.set s.currentIdx hand').map List.length).sum + 1 =
      (s.hands.map List.length).sum := by omega
  show totalCards ⟨s.hands.set s.currentIdx hand', t', i', 0⟩ *
      ((s.hands.set s.currentIdx hand').length + 1) +
      nu ⟨s.hands.set s.currentIdx hand', t', i', 0⟩ <
    totalCards s * (s.hands.length + 1) + nu s
  rw [List.length_set]
  have hcalc : totalCards ⟨s.hands.set s.currentIdx hand', t', i', 0⟩ + 1 = totalCards s := hS
  calc totalCards ⟨s.hands.set s.currentIdx hand', t', i', 0⟩ * (s.hands.length + 1) +
        nu ⟨s.hands.set s.currentIdx hand', t', i', 0⟩
      ≤ totalCards ⟨s.hands.set s.currentIdx hand', t', i', 0⟩ * (s.hands.length + 1) +
        s.hands.length := Nat.add_le_add_left hnu' _
    _ < (totalCards ⟨s.hands.set s.currentIdx hand', t', i', 0⟩ + 1) * (s.hands.length + 1) := by
        rw [Nat.succ_mul]
        omega
    _ = totalCards s * (s.hands.length + 1) := by rw [hcalc]
    _ ≤ totalCards s * (s.hands.length + 1) + nu s := Nat.le_add_right _ _

/-- A greedy pass (no playable card in the acting hand) strictly
decreases the termination measure, provided the pass does not already
end the round. -/
theorem mu_lt_of_pass (s : RoundState)
    (hidx : s.currentIdx < s.hands.length)
    (hcur : handHasPlayable (currentHand s) s.table = false)
    (hpass_lt : isBlockedAll s.hands s.table = true → s.passes + 1 < s.hands.length) :
    mu ⟨s.hands, s.table, (s.currentIdx + 1) % s.hands.length, s.passes + 1⟩ < mu s := by
  have hnu : nu ⟨s.hands, s.table, (s.currentIdx + 1) % s.hands.length, s.passes + 1⟩ <
      nu s := by
    show (if isBlockedAll s.hands s.table then
        s.hands.length - min (s.passes + 1) s.hands.length
      else
        distTo s.hands s.table s.hands.length ((s.currentIdx + 1) % s.hands.length)
          s.hands.length) <
      (if isBlockedAll s.hands s.table then
        s.hands.length - min s.passes s.hands.length
      else
        distTo s.hands s.table s.hands.length s.currentIdx s.hands.length)
    by_cases hb : isBlockedAll s.hands s.table = true
    · rw [if_pos hb, if_pos hb]
      have hlt := hpass_lt hb
      rw [Nat.min_eq_left (by omega), Nat.min_eq_left (by omega)]
      omega
    · rw [if_neg hb, if_neg hb]
      have hbf : isBlockedAll s.hands s.table = false := by
        revert hb
        cases isBlockedAll s.hands s.table <;> simp
      exact distTo_dec s.hands s.table s.hands.length s.currentIdx hidx hcur
        (exists_playable_index s.hands s.table hbf)
  show totalCards ⟨s.hands, s.table, (s.currentIdx + 1) % s.hands.length, s.passes + 1⟩ *
      (s.hands.length + 1) +
      nu ⟨s.hands, s.table, (s.currentIdx + 1) % s.hands.length, s.passes + 1⟩ <
    totalCards s * (s.hands.length + 1) + nu s
  exact Nat.add_lt_add_left hnu _



/-- Under the greedy strategy profile, every step from a state with
nonempty hands either ends the round or continues with a strictly
smaller termination measure. -/
theorem greedy_step_cases (s : RoundState)
    (hne : ∀ h ∈ s.hands, h ≠ []) (hidx : s.currentIdx < s.hands.length) :
    (∃ w s', (roundStep greedyResp s).1 = .resolvedR w s') ∨
    (∃ s', (roundStep greedyResp s).1 = .blockedR s') ∨
    (∃ s', (roundStep greedyResp s).1 = .cont s' ∧
      (∀ h ∈ s'.hands, h ≠ []) ∧ s'.currentIdx < s'.hands.length ∧ mu s' < mu s) := by
  have hch : currentHand s = s.hands[s.currentIdx] := by
    simp [currentHand, List.getD_eq_getElem?_getD, List.getElem?_eq_getElem hidx]
  have hmem : currentHand s ∈ s.hands := by
    rw [hch]
    exact List.getElem_mem hidx
  have hhne : currentHand s ≠ [] := hne _ hmem
  have hemp : ¬((currentHand s).isEmpty = true) := by simp [List.isEmpty_iff, hhne]
  have hn0 : 0 < s.hands.length := Nat.lt_of_le_of_lt (Nat.zero_le _) hidx
  by_cases hq : handHasPlayable (currentHand s) s.table = true
  · -- the greedy strategy plays the first playable card
    have hex : ∃ c ∈ currentHand s, isPlayable c s.table = true := by
      simpa [handHasPlayable, List.any_eq_true] using hq
    have hklt : (currentHand s).findIdx (fun c => isPlayable c s.table) <
        (currentHand s).length := List.findIdx_lt_length_of_exists hex
    have h1 : ¬(greedyResp s = -1 ∨ ((currentHand s).length : Int) ≤ greedyResp s) := by
      simp only [greedyResp]
      omega
    have h2 : ¬(greedyResp s < 0) := by
      simp only [greedyResp]
      omega
    have htoNat : (greedyResp s).toNat =
        (currentHand s).findIdx (fun c => isPlayable c s.table) := by
      simp [greedyResp]
    have hcard : isPlayable ((currentHand s).getD (greedyResp s).toNat ⟨0, 0⟩) s.table = true := by
      rw [htoNat]
      have hgd : (currentHand s).getD
          ((currentHand s).findIdx (fun c => isPlayable c s.table)) ⟨0, 0⟩ =
          (currentHand s).get
            ⟨(currentHand s).findIdx (fun c => isPlayable c s.table), hklt⟩ := by
        simp [List.getD_eq_getElem?_getD, List.getElem?_eq_getElem hklt]
      rw [hgd]
      exact @List.findIdx_of_getElem?_eq_some _ (fun c => isPlayable c s.table) _ _
        (List.getElem?_eq_getElem hklt)
    unfold roundStep
    rw [if_neg hemp, if_neg h1, if_neg h2, if_pos hcard]
    by_cases hfin : ((currentHand s).eraseIdx (greedyResp s).toNat).isEmpty = true
    · rw [if_pos hfin]
      exact Or.inl ⟨_, _, rfl⟩
    · rw [if_neg hfin]
      refine Or.inr (Or.inr ⟨_, rfl, ?_, ?_, ?_⟩)
      · intro h hm
        rcases List.mem_or_eq_of_mem_set hm with hin | rfl
        · exact hne _ hin
        · exact fun he => hfin (by rw [he]; rfl)
      · show (s.currentIdx + 1) % s.hands.length <
          (s.hands.set s.currentIdx ((currentHand s).eraseIdx (greedyResp s).toNat)).length
        rw [List.length_set]
        exact Nat.mod_lt _ hn0
      · refine mu_lt_of_play s ((currentHand s).eraseIdx (greedyResp s).toNat) _ _ hidx ?_
        rw [htoNat, List.length_eraseIdx_of_lt (htoNat ▸ hklt)]
        have hpos : 0 < (currentHand s).length := List.length_pos.mpr hhne
        omega
  · -- the greedy strategy passes: no playable card in this hand
    have hcurf : handHasPlayable (currentHand s) s.table = false := by
      revert hq
      cases handHasPlayable (currentHand s) s.table <;> simp
    have hkeq : (currentHand s).findIdx (fun c => isPlayable c s.table) =
        (currentHand s).length := by
      apply List.findIdx_eq_length_of_false
      intro c hc
      by_contra hcp
      have hcp' : isPlayable c s.table = true := by
        revert hcp
        cases isPlayable c s.table <;> simp
      exact hq (List.any_eq_true.mpr ⟨c, hc, hcp'⟩)
    have h1 : greedyResp s = -1 ∨ ((currentHand s).length : Int) ≤ greedyResp s := by
      right
      simp only [greedyResp, hkeq]
      omega
    unfold roundStep
    rw [if_neg hemp, if_pos h1]
    by_cases hth : s.hands.length ≤ s.passes + 1
    · rw [if_pos hth]
      by_cases hb : isBlockedAll s.hands s.table = true
      · rw [if_pos hb]
        exact Or.inr (Or.inl ⟨_, rfl⟩)
      · rw [if_neg hb]
        refine Or.inr (Or.inr ⟨_, rfl, hne, ?_, ?_⟩)
        · show (s.currentIdx + 1) % s.hands.length < s.hands.length
          exact Nat.mod_lt _ hn0
        · exact mu_lt_of_pass s hidx hcurf (fun hbb => absurd hbb hb)
    · rw [if_neg hth]
      refine Or.inr (Or.inr ⟨_, rfl, hne, ?_, ?_⟩)
      · show (s.currentIdx + 1) % s.hands.length < s.hands.length
        exact Nat.mod_lt _ hn0
      · exact mu_lt_of_pass s hidx hcurf (fun _ => by omega)



/-- Strong induction on the termination measure: greedy rounds reach a
terminal state. -/
theorem greedy_round_terminates_aux :
    ∀ (m : Nat) (s : RoundState), mu s < m →
      (∀ h ∈ s.hands, h ≠ []) → s.currentIdx < s.hands.length →
      ∃ fuel r, runRound greedyResp fuel s = some r := by
  intro m
  induction m with
  | zero => intro s hmu; omega
  | succ m ih =>
    intro s hmu hne hidx
    rcases greedy_step_cases s hne hidx with
      ⟨w, s', hstep⟩ | ⟨s', hstep⟩ | ⟨s', hstep, hne', hidx', hdec⟩
    · exact ⟨1, (.resolvedO w, s'), by unfold runRound; rw [hstep]⟩
    · exact ⟨1, (.blockedO, s'), by unfold runRound; rw [hstep]⟩
    · obtain ⟨fuel, r, hrun⟩ := ih s' (by omega) hne' hidx'
      exact ⟨fuel + 1, r, by unfold runRound; rw [hstep]; exact hrun⟩

/-- Claim C3 (amended): for every configuration in which each dealt
hand is nonempty, a round where every player follows the greedy
first-playable strategy (play a playable card whenever one is held,
otherwise pass) reaches a terminal state after finitely many turns. The
unrestricted claim is false: strategies that pass forever while a
playable card remains make the loop run forever (see the
counterexample). -/
theorem greedy_round_terminates (s : RoundState)
    (hne : ∀ h ∈ s.hands, h ≠ []) (hidx : s.currentIdx < s.hands.length) :
    ∃ fuel r, runRound greedyResp fuel s = some r :=
  greedy_round_terminates_aux (mu s + 1) s (Nat.lt_succ_self _) hne hidx

/-- Witness for claim C3 at `cfgPassStuck` under the greedy profile:
the same deal that loops forever under perpetual passing terminates
when played greedily. -/
theorem greedy_round_terminates_witness :
    ((∀ h ∈ cfgPassStuck.hands, h ≠ []) ∧
      cfgPassStuck.currentIdx < cfgPassStuck.hands.length) ∧
    ∃ fuel r, runRound greedyResp fuel cfgPassStuck = some r :=
  ⟨⟨by decide, by decide⟩, greedy_round_terminates cfgPassStuck (by decide) (by decide)⟩

end Sevens
